import Mathlib

/- Verification of the claudeboss session-browser backend.

   Shallow embedding of the Python sources:
     - src/claudeboss/summarizer.py  (summary cache and delta-regeneration policy)
     - src/claudeboss/session.py     (session loading, filtering, deduplication,
                                      bounded excerpt construction)
     - src/claudeboss/activity.py    (activity-period segmentation and timeline)
     - src/claudeboss/active_detector.py (path encoding, project-dir probing,
                                      liveness refresh)

   Strings manipulated character-by-character by the source (path encoding,
   excerpt building) are embedded as List Char; Python str.replace / str.lstrip /
   str.strip / str.startswith / slicing are modelled by the explicit char-list
   operations below.  Python dicts (insertion-ordered, in-place update) are
   modelled as association lists with in-place update.  datetimes and byte
   sizes are modelled as Int (timestamps in minutes where the 30-minute gap
   threshold applies).  The external LLM text generator, which can fail by
   returning the empty string, is a function parameter `gen`; the md5-based
   content hash is an abstract function parameter `h`. -/

set_option linter.unusedVariables false

/-! ### Python primitive helpers -/

/-- Python `s.startswith(p)`, on the underlying character lists. -/
def strStartsWith (s p : String) : Bool := p.data.isPrefixOf s.data

/-- Python slicing `s[:n]` (first `n` characters). -/
def strTake (n : Nat) (s : String) : String := ⟨s.data.take n⟩

/-- Lookup in an insertion-ordered association list (Python `d[k]` / `k in d`). -/
def alistLookup {α : Type} : List (String × α) → String → Option α
  | [], _ => none
  | (k, v) :: rest, key => if k = key then some v else alistLookup rest key

/-- Python `d[k] = v`: replace in place if the key exists, else append. -/
def alistSet {α : Type} : List (String × α) → String → α → List (String × α)
  | [], key, v => [(key, v)]
  | (k, w) :: rest, key, v =>
    if k = key then (k, v) :: rest else (k, w) :: alistSet rest key v

/-! ### Data model: Session (session.py, dataclass Session) -/

/-- The `Session` dataclass of session.py, with `mtime` as an integer timestamp
and `context_size` as an integer byte count. -/
structure Session where
  uuid : String
  slug : String
  cwd : String
  project_path : String
  mtime : Int
  context_size : Int
  summary : String := ""
  git_branch : String := ""
  model : String := ""
  first_message : String := ""
  last_summary : String := ""
  context_start : String := ""
  context_end : String := ""
  category : String := "personal"
  is_active : Bool := false
deriving DecidableEq

/-! ### Summarizer (summarizer.py) -/

/-- A summary-cache value: either the legacy plain-string shape or the
structured record `{"hash": h, "size": n, "summary": text}`. -/
inductive CacheEntry where
  | legacy (text : String)
  | record (hash : String) (size : Int) (summary : String)
deriving DecidableEq

/-- An invocation of the external text generator: either the full `title`
template over the combined context, or the `update` (delta) template over the
old summary and the new tail excerpt. -/
inductive GenCall where
  | full (prompt : String)
  | delta (old_summary tail : String)
deriving DecidableEq

/-- Result of `summarize_single`: the cache as it stands after the call (the
source persists it with `save_cache` whenever it mutates it), the session's
new `last_summary` field, and the list of generator invocations made. -/
structure SummarizeResult where
  cache : List (String × CacheEntry)
  last_summary : String
  calls : List GenCall
deriving DecidableEq

/-- The combined-context prompt body built by `summarize_single`'s fresh path
(`f"START:\n{...[:1000]}\n\nEND:\n{...[:1000]}"`). -/
def mkFullContext (cs ce : String) : String :=
  "START:\n" ++ strTake 1000 cs ++ "\n\nEND:\n" ++ strTake 1000 ce

/-- summarizer.py `summarize_single`, lines 133-193.  `h` is `_stable_hash`,
`gen` the external generator (`_summarize_via_cli` / `_summarize_delta`),
which signals failure by returning `""`. -/
def summarize_single (h : String → String) (gen : GenCall → String)
    (cache : List (String × CacheEntry)) (s : Session) : SummarizeResult :=
  if s.context_start = "" ∧ s.context_end = "" then ⟨cache, "", []⟩
  else
    let content_hash := h (s.context_start ++ s.context_end)
    let current_size := s.context_size
    match alistLookup cache s.uuid with
    | some (CacheEntry.legacy text) =>
      ⟨alistSet cache s.uuid (CacheEntry.record content_hash current_size text), text, []⟩
    | some (CacheEntry.record old_hash old_size old_summary) =>
      if old_hash = content_hash then ⟨cache, old_summary, []⟩
      else if current_size - old_size < 10000 then ⟨cache, old_summary, []⟩
      else
        let call := GenCall.delta old_summary s.context_end
        let summary := gen call
        if summary = "" then ⟨cache, old_summary, [call]⟩
        else
          ⟨alistSet cache s.uuid (CacheEntry.record content_hash current_size summary),
           summary, [call]⟩
    | none =>
      let call := GenCall.full (mkFullContext s.context_start s.context_end)
      let summary := gen call
      if summary = "" then ⟨cache, "", [call]⟩
      else
        ⟨alistSet cache s.uuid (CacheEntry.record content_hash current_size summary),
         summary, [call]⟩

/-! ### SessionStore (session.py, load_sessions) -/

/-- The deduplication key of `load_sessions`: `s.cwd or s.project_path`. -/
def sessionKey (s : Session) : String := if s.cwd = "" then s.project_path else s.cwd

/-- One step of the dedup loop of `load_sessions` (lines 154-158):
`if path_key not in by_path or s.context_size > by_path[path_key].context_size:
  by_path[path_key] = s`. -/
def insertByPath (m : List (String × Session)) (s : Session) : List (String × Session) :=
  match alistLookup m (sessionKey s) with
  | none => alistSet m (sessionKey s) s
  | some old =>
    if old.context_size < s.context_size then alistSet m (sessionKey s) s else m

/-- The dedup loop folded over all parsed sessions. -/
def byPathMap : List Session → List (String × Session) → List (String × Session)
  | [], m => m
  | s :: rest, m => byPathMap rest (insertByPath m s)

/-- `list(by_path.values())` after the dedup loop of `load_sessions`. -/
def dedupByPath (ss : List Session) : List Session := (byPathMap ss []).map Prod.snd

/-- The per-file body of the scan loop of `load_sessions` (lines 134-151):
`none` models a file whose parse raised or returned no session (skipped by the
`try/except` / `if not session`), and the three noise filters follow.  `cat`
is `categorize_session`. -/
def validFilter (cat : Session → String) : Option Session → Option Session
  | none => none
  | some s =>
    if strStartsWith s.first_message ("Evaluate if this bash") then none
    else if s.cwd = "" ∧ s.first_message = "" then none
    else if s.context_size < 500 then none
    else some { s with category := cat s }

/-- session.py `load_sessions`: scan (with per-file failure skipping and noise
filters) followed by deduplication by path key. -/
def load_sessions (cat : Session → String) (files : List (Option Session)) : List Session :=
  dedupByPath (files.filterMap (validFilter cat))

/-! ### ActivityReconstructor (activity.py) -/

/-- The `ActivityPeriod` dataclass (`stop` models the source's `end` field). -/
structure ActivityPeriod where
  start : Int
  stop : Int
  message_count : Nat
  first_message : String
deriving DecidableEq

/-- The loop body of `_group_into_periods` (lines 232-257): carries the current
period's start, end and message list, emitting a period whenever the gap
`ts - period_end` exceeds the threshold. -/
def groupGo (θ : Int) : Int → Int → List String → List (Int × String) → List ActivityPeriod
  | pStart, pEnd, msgs, [] => [⟨pStart, pEnd, msgs.length, msgs.headD ("")⟩]
  | pStart, pEnd, msgs, (ts, msg) :: rest =>
    if θ < ts - pEnd then
      ⟨pStart, pEnd, msgs.length, msgs.headD ("")⟩ :: groupGo θ ts ts [msg] rest
    else
      groupGo θ pStart ts (msgs ++ [msg]) rest

/-- activity.py `_group_into_periods`.  Timestamps are integers in the unit of
the gap threshold (minutes: the caller passes `timedelta(minutes=30)`). -/
def groupIntoPeriods (ts : List (Int × String)) (θ : Int) : List ActivityPeriod :=
  match ts with
  | [] => []
  | (t, msg) :: rest => groupGo θ t t [msg] rest

/-- Default timestamped-evidence item (for total head/last operations). -/
def dummyTS : Int × String := (0, "")

/-- First evidence item of a run (`dummyTS` on the empty run). -/
def headTS : List (Int × String) → Int × String
  | [] => dummyTS
  | x :: _ => x

/-- Last evidence item of a run (`dummyTS` on the empty run). -/
def lastTS : List (Int × String) → Int × String
  | [] => dummyTS
  | [x] => x
  | _ :: y :: t => lastTS (y :: t)

/-- One step of the specification-side segmentation: prepend item `x` to an
already-computed run list, opening a new run exactly when the gap to the next
item (the first run's head) strictly exceeds the threshold. -/
def chunksStep (θ : Int) (x : Int × String) :
    List (List (Int × String)) → List (List (Int × String))
  | [] => [[x]]
  | run :: runs =>
    if θ < (headTS run).1 - x.1 then [x] :: run :: runs
    else (x :: run) :: runs

/-- Specification-side segmentation: split the evidence list into maximal runs,
starting a new run exactly when the gap between consecutive items strictly
exceeds the threshold. -/
def chunks (θ : Int) : List (Int × String) → List (List (Int × String))
  | [] => []
  | x :: xs => chunksStep θ x (chunks θ xs)

/-- Proof helper: prepend a nonempty current run `cur` to a run list, merging
it into the first run when the boundary gap is small. -/
def chunksJoin (θ : Int) (cur : List (Int × String)) :
    List (List (Int × String)) → List (List (Int × String))
  | [] => [cur]
  | run :: runs =>
    if θ < (headTS run).1 - (lastTS cur).1 then cur :: run :: runs
    else (cur ++ run) :: runs

/-- Proof helper: `chunks` of `rest` continued from the current run `cur`. -/
def chunksWith (θ : Int) (cur rest : List (Int × String)) : List (List (Int × String)) :=
  chunksJoin θ cur (chunks θ rest)

/-- The period a maximal run yields: start/end are the run's first/last
timestamps, the count its length, the label its first item's. -/
def mkPeriod (run : List (Int × String)) : ActivityPeriod :=
  ⟨(headTS run).1, (lastTS run).1, run.length, (headTS run).2⟩

/-- The `ActivityTimeline` dataclass fields settled by `reconstruct_activity`. -/
structure ActivityTimeline where
  session_id : String
  periods : List ActivityPeriod
  total_messages : Nat
  first_activity : Option Int
  last_activity : Option Int
deriving DecidableEq

/-- activity.py `reconstruct_activity`, lines 118-139, from the merged and
sorted evidence list onward: empty evidence gives the empty timeline, else
periods are grouped with the 30-minute threshold and `total_messages` is the
evidence count. -/
def reconstructTimeline (uuid : String) (sortedTs : List (Int × String)) : ActivityTimeline :=
  match sortedTs with
  | [] => ⟨uuid, [], 0, none, none⟩
  | x :: rest =>
    ⟨uuid, groupIntoPeriods (x :: rest) 30, (x :: rest).length,
     some x.1, some ((lastTS (x :: rest)).1)⟩

/-! ### PathCodec (active_detector.py) -/

/-- Python slash-dot replacement (first `replace` of `cwd_to_project_path`):
left-to-right non-overlapping replacement of each slash-dot occurrence by
slash-dash. -/
def replaceSlashDot : List Char → List Char
  | [] => []
  | [c] => [c]
  | c :: d :: rest =>
    if c = '/' ∧ d = '.' then '/' :: '-' :: replaceSlashDot rest
    else c :: replaceSlashDot (d :: rest)

/-- Python `.replace("/", "-")`, character map. -/
def slashToDash (c : Char) : Char := if c = '/' then '-' else c

/-- active_detector.py `cwd_to_project_path` (lines 131-140): replace each
slash-dot by slash-dash, then each slash by dash, then strip leading dashes. -/
def cwd_to_project_path (cwd : List Char) : List Char :=
  ((replaceSlashDot cwd).map slashToDash).dropWhile (fun c => c == '-')

/-- Python `.replace("_", "-")`, character map. -/
def underscoreToDash (c : Char) : Char := if c = '_' then '-' else c

/-- The ordered candidate list built by `find_project_dir` (lines 170-182):
the canonical encoding, the same with a leading dash, and (only when the
underscore-replaced form differs) those two forms with `_` replaced by `-`. -/
def candidates (cwd : List Char) : List (List Char) :=
  let p := cwd_to_project_path cwd
  let alt := p.map underscoreToDash
  [p, '-' :: p] ++ (if alt ≠ p then [alt, '-' :: alt] else [])

/-- active_detector.py `find_project_dir`: probe the candidates in order and
return the first that exists on disk (`onDisk` models `candidate.exists()`). -/
def find_project_dir (onDisk : List Char → Bool) (cwd : List Char) : Option (List Char) :=
  (candidates cwd).find? onDisk

/-- Modelled from the spec's words (section 4.1): the candidate order the spec
prescribes, for comparison with `candidates`. -/
def specCandidates (cwd : List Char) : List (List Char) :=
  let canonical := cwd_to_project_path cwd
  let alt := canonical.map underscoreToDash
  if alt = canonical then [canonical, '-' :: canonical]
  else [canonical, '-' :: canonical, alt, '-' :: alt]

/-- An absolute path with the given components: `/c₁/c₂/.../cₙ`. -/
def fullPath (cs : List (List Char)) : List Char := (cs.map (fun c => '/' :: c)).flatten

/-- How the encoder treats one path component: a leading dot becomes a dash
(which lands next to the separator dash, yielding a double dash). -/
def markDot : List Char → List Char
  | [] => []
  | c0 :: t => if c0 = '.' then '-' :: t else c0 :: t

/-- Specification-side encoding over path components: each separator becomes a
dash, a component's leading dot becomes an additional dash, leading dashes are
stripped. -/
def specEncode (cs : List (List Char)) : List Char :=
  ((cs.map (fun c => '-' :: markDot c)).flatten).dropWhile (fun c => c == '-')

/-! ### Excerpt construction (session.py, _load_session_file lines 242-254, 267-268) -/

/-- Concatenate text fragments, each followed by the `"\n"` the source appends. -/
def joinNL (ts : List (List Char)) : List Char := (ts.map (fun t => t ++ ['\n'])).flatten

/-- The start-excerpt loop: `for text in last_texts: if len(acc)+len(text) > 2000:
break; acc += text + "\n"`. -/
def buildStartRaw : List Char → List (List Char) → List Char
  | acc, [] => acc
  | acc, t :: rest =>
    if 2000 < acc.length + t.length then acc else buildStartRaw (acc ++ t ++ ['\n']) rest

/-- The end-excerpt loop: `for text in reversed(last_texts): if len(acc)+len(text)
> 2000: break; acc = text + "\n" + acc` (applied to the already-reversed list). -/
def buildEndRaw : List Char → List (List Char) → List Char
  | acc, [] => acc
  | acc, t :: rest =>
    if 2000 < acc.length + t.length then acc else buildEndRaw (t ++ '\n' :: acc) rest

/-- Python whitespace for `str.strip()`. -/
def isPyWs (c : Char) : Bool :=
  (c == ' ') || (c == '\t') || (c == '\n') || (c == '\r') || (c == '\x0b') || (c == '\x0c')

/-- Python `s.strip()`. -/
def pyStrip (l : List Char) : List Char :=
  ((l.dropWhile isPyWs).reverse.dropWhile isPyWs).reverse

/-- `context_start` as stored on the Session: the loop's result, stripped. -/
def buildContextStart (texts : List (List Char)) : List Char :=
  pyStrip (buildStartRaw [] texts)

/-- `context_end` as stored on the Session: the reversed loop's result, stripped. -/
def buildContextEnd (texts : List (List Char)) : List Char :=
  pyStrip (buildEndRaw [] texts.reverse)

/-! ### ActiveCorrelator liveness refresh (active_detector.py, refresh_active_status) -/

/-- active_detector.py `refresh_active_status` (lines 246-256):
`session.is_active = session.uuid in active_uuids` for each session. -/
def refresh_active_status (sessions : List Session) (active_uuids : List String) :
    List Session :=
  sessions.map (fun s => { s with is_active := active_uuids.contains s.uuid })

/-- Default session value for total list indexing. -/
def dummySession : Session :=
  { uuid := "", slug := "", cwd := "", project_path := "", mtime := 0, context_size := 0 }

/-! ### Concrete instances used by witnesses and counterexamples -/

/-- A concrete stand-in for `_stable_hash`. -/
def hashA : String → String := fun _ => "h1"

/-- A concrete stand-in for the external generator, always succeeding. -/
def genA : GenCall → String := fun _ => "Gen Title"

/-- A session with empty excerpts (the short-circuited case). -/
def sessEmptyA : Session := { dummySession with uuid := "ua" }

/-- A stale structured cache entry for `sessEmptyA` (fingerprint mismatch,
growth below the threshold). -/
def cacheA : List (String × CacheEntry) := [("ua", CacheEntry.record ("stale") 0 ("Old Title"))]

/-- A session with content whose cache entry is stale and grown past 10 KB. -/
def sessB : Session :=
  { dummySession with
    uuid := "ub"
    context_start := "sss"
    context_end := "eee"
    context_size := 20000 }

/-- A stale structured cache entry for `sessB` (cached at 5000 bytes). -/
def cacheB : List (String × CacheEntry) :=
  [("ub", CacheEntry.record ("stale") 5000 ("Old Title"))]

/-- A session with empty excerpts whose cache entry is legacy-shaped. -/
def sessEmptyC : Session := { dummySession with uuid := "uc" }

/-- A legacy cache entry for `sessEmptyC`. -/
def cacheC : List (String × CacheEntry) := [("uc", CacheEntry.legacy ("Old Title"))]

/-- A session with content whose cache entry is legacy-shaped. -/
def sessD : Session :=
  { dummySession with
    uuid := "ud"
    context_start := "start text"
    context_size := 1234 }

/-- A legacy cache entry for `sessD`. -/
def cacheD : List (String × CacheEntry) := [("ud", CacheEntry.legacy ("Legacy Title"))]

/-- A session used by the liveness-refresh witness. -/
def sessE : Session := { dummySession with uuid := "ue" }

/-- Invariant of the dedup loop: after processing `processed`, the map `m` has
pairwise-distinct keys, every entry is keyed by its session's path key and
holds a processed session of maximal `context_size` for that key, and every
processed session's key is present. -/
@[reducible]
def MapInv (processed : List Session) (m : List (String × Session)) : Prop :=
  (m.map Prod.fst).Nodup ∧
  (∀ p ∈ m, sessionKey p.2 = p.1 ∧ p.2 ∈ processed ∧
    ∀ s ∈ processed, sessionKey s = p.1 → s.context_size ≤ p.2.context_size) ∧
  (∀ s ∈ processed, ∃ p ∈ m, p.1 = sessionKey s)

/-- A concrete categorizer. -/
def catW : Session → String := fun _ => "personal"

/-- A valid parsed session at cwd `/p`, 600 bytes. -/
def sessF : Session :=
  { dummySession with
    uuid := "f1"
    cwd := "/p"
    first_message := "hi"
    context_size := 600 }

/-- A valid parsed session at the same cwd `/p`, 900 bytes. -/
def sessG : Session :=
  { dummySession with
    uuid := "g1"
    cwd := "/p"
    first_message := "yo"
    context_size := 900 }

/-- A scan result: two valid records sharing a cwd plus one malformed file. -/
def filesW : List (Option Session) := [some sessF, none, some sessG]

/-- A concrete working directory containing an underscore. -/
def cwdW : List Char := ['/', 'a', '_', 'b']

/-- The dash-prefixed underscore-normalized encoding of `cwdW`. -/
def projW : List Char := ['-', 'a', '-', 'b']

/-- On-disk predicate that recognizes only `projW`. -/
def onDiskW : List Char → Bool := fun l => l == projW

/-! ### Helper lemmas -/

theorem alistLookup_alistSet_self {α : Type} (m : List (String × α)) (k : String) (v : α) :
    alistLookup (alistSet m k v) k = some v := by
  induction m with
  | nil => simp [alistSet, alistLookup]
  | cons p rest ih =>
    obtain ⟨k', w⟩ := p
    by_cases h : k' = k <;> simp [alistSet, alistLookup, h, ih]

theorem getD_map_of_lt {α β : Type} (f : α → β) (l : List α) (i : Nat) (d : β) (d' : α)
    (h : i < l.length) : (l.map f).getD i d = f (l.getD i d') := by
  induction l generalizing i with
  | nil => simp at h
  | cons a rest ih =>
    cases i with
    | zero => simp
    | succ j => simpa using ih j (by simpa using h)

/-! ### Claim theorems -/

/-- C1 counterexample: a session with empty start and end excerpts but a stale
structured cache entry with growth `0 < 10000`.  The claim says `summarize`
must set the display summary to the old cached text ("Old Title"), but the
source's empty-excerpt short-circuit sets it to `""` without consulting the
cache. -/
theorem summarize_stale_empty_excerpts_cex :
    alistLookup cacheA sessEmptyA.uuid =
      some (CacheEntry.record ("stale") 0 ("Old Title")) ∧
    "stale" ≠ hashA (sessEmptyA.context_start ++ sessEmptyA.context_end) ∧
    sessEmptyA.context_size - 0 < 10000 ∧
    (summarize_single hashA genA cacheA sessEmptyA).calls = [] ∧
    (summarize_single hashA genA cacheA sessEmptyA).last_summary = "" ∧
    "" ≠ "Old Title" := by
  decide

/-- C1 (amended: restricted to sessions with at least one non-empty excerpt):
with a structured cache entry whose fingerprint mismatches, growth strictly
below 10000 bytes keeps the old cached text and makes no generator call;
growth of 10000 bytes or more makes exactly one delta-path generator call,
and on success the cache entry is overwritten with the new fingerprint, size
and text, while on failure the session keeps the old cached summary. -/
theorem summarize_delta_policy (h : String → String) (gen : GenCall → String)
    (cache : List (String × CacheEntry)) (s : Session)
    (old_hash : String) (old_size : Int) (old_summary : String)
    (hne : ¬(s.context_start = "" ∧ s.context_end = ""))
    (hlook : alistLookup cache s.uuid = some (CacheEntry.record old_hash old_size old_summary))
    (hstale : old_hash ≠ h (s.context_start ++ s.context_end)) :
    (s.context_size - old_size < 10000 →
      summarize_single h gen cache s = ⟨cache, old_summary, []⟩) ∧
    (10000 ≤ s.context_size - old_size →
      (summarize_single h gen cache s).calls = [GenCall.delta old_summary s.context_end] ∧
      (gen (GenCall.delta old_summary s.context_end) ≠ "" →
        summarize_single h gen cache s =
          ⟨alistSet cache s.uuid
             (CacheEntry.record (h (s.context_start ++ s.context_end)) s.context_size
               (gen (GenCall.delta old_summary s.context_end))),
           gen (GenCall.delta old_summary s.context_end),
           [GenCall.delta old_summary s.context_end]⟩) ∧
      (gen (GenCall.delta old_summary s.context_end) = "" →
        summarize_single h gen cache s =
          ⟨cache, old_summary, [GenCall.delta old_summary s.context_end]⟩)) := by
  simp only [summarize_single, hlook, if_neg hne]
  rw [if_neg hstale]
  refine ⟨fun hlt => ?_, fun hge => ?_⟩
  · rw [if_pos hlt]
  · rw [if_neg (not_lt.mpr hge)]
    refine ⟨?_, fun hgen => ?_, fun hgen => ?_⟩
    · split <;> rfl
    · rw [if_neg hgen]
    · rw [if_pos hgen]

/-- C1 witness: concrete stale entry grown by 15000 bytes takes the delta path. -/
theorem summarize_delta_policy_witness :
    (summarize_single hashA genA cacheB sessB).calls =
      [GenCall.delta ("Old Title") sessB.context_end] :=
  ((summarize_delta_policy hashA genA cacheB sessB ("stale") 5000 ("Old Title")
    (by decide) (by decide) (by decide)).2 (by decide)).1

/-- C8 counterexample: a session with empty start and end excerpts and a
legacy (plain string) cache entry.  The claim says the first summarize call
upgrades the entry in place and surfaces the legacy text, but the source's
empty-excerpt short-circuit leaves the legacy entry untouched and sets the
display summary to `""`. -/
theorem summarize_legacy_empty_excerpts_cex :
    alistLookup cacheC sessEmptyC.uuid = some (CacheEntry.legacy ("Old Title")) ∧
    (summarize_single hashA genA cacheC sessEmptyC).cache = cacheC ∧
    alistLookup (summarize_single hashA genA cacheC sessEmptyC).cache sessEmptyC.uuid =
      some (CacheEntry.legacy ("Old Title")) ∧
    (summarize_single hashA genA cacheC sessEmptyC).last_summary = "" ∧
    "" ≠ "Old Title" := by
  decide

/-- C8 (amended: restricted to sessions with at least one non-empty excerpt):
a legacy plain-string cache entry is upgraded in place to the structured
shape on the first summarize call, the display summary is set to the legacy
text, no generator call is made, and the cache as persisted by that call maps
the key to the structured record. -/
theorem summarize_legacy_upgrade (h : String → String) (gen : GenCall → String)
    (cache : List (String × CacheEntry)) (s : Session) (text : String)
    (hne : ¬(s.context_start = "" ∧ s.context_end = ""))
    (hlook : alistLookup cache s.uuid = some (CacheEntry.legacy text)) :
    summarize_single h gen cache s =
      ⟨alistSet cache s.uuid
         (CacheEntry.record (h (s.context_start ++ s.context_end)) s.context_size text),
       text, []⟩ ∧
    alistLookup (summarize_single h gen cache s).cache s.uuid =
      some (CacheEntry.record (h (s.context_start ++ s.context_end)) s.context_size text) := by
  have hmain : summarize_single h gen cache s =
      ⟨alistSet cache s.uuid
         (CacheEntry.record (h (s.context_start ++ s.context_end)) s.context_size text),
       text, []⟩ := by
    simp only [summarize_single, hlook, if_neg hne]
  exact ⟨hmain, by rw [hmain]; exact alistLookup_alistSet_self ..⟩

/-- C8 witness: a concrete legacy entry is upgraded on a session with content. -/
theorem summarize_legacy_upgrade_witness :
    summarize_single hashA genA cacheD sessD =
      ⟨alistSet cacheD sessD.uuid
         (CacheEntry.record (hashA (sessD.context_start ++ sessD.context_end))
           sessD.context_size ("Legacy Title")),
       "Legacy Title", []⟩ :=
  (summarize_legacy_upgrade hashA genA cacheD sessD ("Legacy Title")
    (by decide) (by decide)).1

/-- C4: `load_sessions` is total (it can raise no exception), and a record
file that fails to parse (modelled `none`, covering the `try/except` skip) is
dropped with every valid sibling producing exactly the same sessions. -/
theorem load_sessions_skips_malformed (cat : Session → String)
    (xs ys : List (Option Session)) :
    load_sessions cat (xs ++ none :: ys) = load_sessions cat (xs ++ ys) := by
  simp [load_sessions, List.filterMap_append, List.filterMap_cons, validFilter]

/-- C9: the liveness refresh sets each session's `is_active` flag to true
exactly when its uuid is in the active set, and leaves every other field of
every session unchanged (same list length, all 14 other fields preserved
positionally). -/
theorem refresh_active_status_frame (ss : List Session) (act : List String) :
    (refresh_active_status ss act).length = ss.length ∧
    ∀ i, i < ss.length →
      (((refresh_active_status ss act).getD i dummySession).is_active = true ↔
        (ss.getD i dummySession).uuid ∈ act) ∧
      ((refresh_active_status ss act).getD i dummySession).uuid =
        (ss.getD i dummySession).uuid ∧
      ((refresh_active_status ss act).getD i dummySession).slug =
        (ss.getD i dummySession).slug ∧
      ((refresh_active_status ss act).getD i dummySession).cwd =
        (ss.getD i dummySession).cwd ∧
      ((refresh_active_status ss act).getD i dummySession).project_path =
        (ss.getD i dummySession).project_path ∧
      ((refresh_active_status ss act).getD i dummySession).mtime =
        (ss.getD i dummySession).mtime ∧
      ((refresh_active_status ss act).getD i dummySession).context_size =
        (ss.getD i dummySession).context_size ∧
      ((refresh_active_status ss act).getD i dummySession).summary =
        (ss.getD i dummySession).summary ∧
      ((refresh_active_status ss act).getD i dummySession).git_branch =
        (ss.getD i dummySession).git_branch ∧
      ((refresh_active_status ss act).getD i dummySession).model =
        (ss.getD i dummySession).model ∧
      ((refresh_active_status ss act).getD i dummySession).first_message =
        (ss.getD i dummySession).first_message ∧
      ((refresh_active_status ss act).getD i dummySession).last_summary =
        (ss.getD i dummySession).last_summary ∧
      ((refresh_active_status ss act).getD i dummySession).context_start =
        (ss.getD i dummySession).context_start ∧
      ((refresh_active_status ss act).getD i dummySession).context_end =
        (ss.getD i dummySession).context_end ∧
      ((refresh_active_status ss act).getD i dummySession).category =
        (ss.getD i dummySession).category := by
  refine ⟨by simp [refresh_active_status], fun i hi => ?_⟩
  have hmap : (refresh_active_status ss act).getD i dummySession =
      { ss.getD i dummySession with
        is_active := act.contains (ss.getD i dummySession).uuid } :=
    getD_map_of_lt _ ss i dummySession dummySession hi
  rw [hmap]
  refine ⟨?_, rfl, rfl, rfl, rfl, rfl, rfl, rfl, rfl, rfl, rfl, rfl, rfl, rfl, rfl⟩
  simp

/-- C9 witness: the single session with uuid "ue" is marked active by the
active set containing "ue". -/
theorem refresh_active_status_frame_witness :
    (((refresh_active_status [sessE] ["ue"]).getD 0 dummySession).is_active = true) ↔
      ((([sessE] : List Session).getD 0 dummySession).uuid ∈ ["ue"]) :=
  ((refresh_active_status_frame [sessE] ["ue"]).2 0 (by decide)).1

/-! ### Probing order (C5) -/

theorem find?_first {α : Type} (p : α → Bool) : ∀ (l₁ : List α) (c : α) (l₂ : List α),
    (∀ b ∈ l₁, p b = false) → p c = true → (l₁ ++ c :: l₂).find? p = some c
  | [], c, l₂, _, hc => by simp [List.find?_cons_of_pos, hc]
  | b :: t, c, l₂, h₁, hc => by
    rw [List.cons_append, List.find?_cons_of_neg]
    · exact find?_first p t c l₂ (fun x hx => h₁ x (List.mem_cons_of_mem _ hx)) hc
    · simp [h₁ b (List.mem_cons_self _ _)]

/-- C5: the candidate project directories are probed in exactly the spec's
fixed order (canonical encoding, dash-prefixed canonical, then — only when
the underscore-replaced form differs — the same two underscore-replaced
forms); the first candidate that exists is returned, and when none exists the
result is `none`, not an error. -/
theorem find_project_dir_probe_order (onDisk : List Char → Bool) (cwd : List Char) :
    candidates cwd = specCandidates cwd ∧
    ((∀ c ∈ candidates cwd, onDisk c = false) → find_project_dir onDisk cwd = none) ∧
    (∀ l₁ c l₂, candidates cwd = l₁ ++ c :: l₂ → (∀ b ∈ l₁, onDisk b = false) →
      onDisk c = true → find_project_dir onDisk cwd = some c) := by
  refine ⟨?_, fun hall => ?_, fun l₁ c l₂ heq h₁ hc => ?_⟩
  · by_cases hP : (cwd_to_project_path cwd).map underscoreToDash = cwd_to_project_path cwd <;>
      simp [candidates, specCandidates, hP]
  · exact List.find?_eq_none.mpr (fun x hx => by simp [hall x hx])
  · rw [find_project_dir, heq]
    exact find?_first onDisk l₁ c l₂ h₁ hc

/-- C5 witness: probing `/a_b` when only the dash-prefixed underscore-replaced
form exists on disk returns that fourth candidate. -/
theorem find_project_dir_probe_order_witness :
    find_project_dir onDiskW cwdW = some projW :=
  (find_project_dir_probe_order onDiskW cwdW).2.2
    [['a', '_', 'b'], ['-', 'a', '_', 'b'], ['a', '-', 'b']] projW []
    (by decide) (by decide) (by decide)

/-! ### Activity segmentation (C3, C10) -/

theorem headTS_cons (x : Int × String) (l : List (Int × String)) : headTS (x :: l) = x := rfl

theorem lastTS_singleton (x : Int × String) : lastTS [x] = x := rfl

theorem lastTS_concat : ∀ (l : List (Int × String)) (a : Int × String), lastTS (l ++ [a]) = a
  | [], a => rfl
  | [x], a => rfl
  | x :: y :: t, a => lastTS_concat (y :: t) a

theorem lastTS_cons (x : Int × String) (l : List (Int × String)) (h : l ≠ []) :
    lastTS (x :: l) = lastTS l := by
  cases l with
  | nil => exact absurd rfl h
  | cons y t => rfl

theorem headTS_append (l l' : List (Int × String)) (h : l ≠ []) :
    headTS (l ++ l') = headTS l := by
  cases l with
  | nil => exact absurd rfl h
  | cons c t => rfl

theorem chunks_cons_head (θ : Int) (x : Int × String) (xs : List (Int × String)) :
    ∃ t runs, chunks θ (x :: xs) = (x :: t) :: runs := by
  show ∃ t runs, chunksStep θ x (chunks θ xs) = (x :: t) :: runs
  cases chunks θ xs with
  | nil => exact ⟨[], [], rfl⟩
  | cons run runs =>
    by_cases hgap : θ < (headTS run).1 - x.1
    · exact ⟨[], run :: runs, by simp only [chunksStep]; rw [if_pos hgap]⟩
    · exact ⟨run, runs, by simp only [chunksStep]; rw [if_neg hgap]⟩

theorem chunks_cons_eq (θ : Int) (x : Int × String) (xs : List (Int × String)) :
    chunks θ (x :: xs) = chunksWith θ [x] xs := by
  show chunksStep θ x (chunks θ xs) = chunksJoin θ [x] (chunks θ xs)
  cases chunks θ xs with
  | nil => rfl
  | cons run runs => rfl

theorem chunksWith_small (θ : Int) (cur : List (Int × String)) (x : Int × String)
    (rest : List (Int × String)) (h : ¬ θ < x.1 - (lastTS cur).1) :
    chunksWith θ cur (x :: rest) = chunksWith θ (cur ++ [x]) rest := by
  show chunksJoin θ cur (chunksStep θ x (chunks θ rest)) =
    chunksJoin θ (cur ++ [x]) (chunks θ rest)
  cases chunks θ rest with
  | nil =>
    rw [show chunksStep θ x ([] : List (List (Int × String))) = [[x]] from rfl]
    rw [show chunksJoin θ cur [[x]] =
      if θ < x.1 - (lastTS cur).1 then cur :: [[x]] else [cur ++ [x]] from rfl]
    rw [if_neg h]
    rfl
  | cons run runs =>
    by_cases hgap : θ < (headTS run).1 - x.1
    · rw [show chunksStep θ x (run :: runs) =
        if θ < (headTS run).1 - x.1 then [x] :: run :: runs else (x :: run) :: runs from rfl]
      rw [if_pos hgap]
      rw [show chunksJoin θ cur ([x] :: run :: runs) =
        if θ < x.1 - (lastTS cur).1 then cur :: [x] :: run :: runs
        else (cur ++ [x]) :: run :: runs from rfl]
      rw [if_neg h]
      rw [show chunksJoin θ (cur ++ [x]) (run :: runs) =
        if θ < (headTS run).1 - (lastTS (cur ++ [x])).1 then (cur ++ [x]) :: run :: runs
        else ((cur ++ [x]) ++ run) :: runs from rfl]
      rw [lastTS_concat, if_pos hgap]
    · rw [show chunksStep θ x (run :: runs) =
        if θ < (headTS run).1 - x.1 then [x] :: run :: runs else (x :: run) :: runs from rfl]
      rw [if_neg hgap]
      rw [show chunksJoin θ cur ((x :: run) :: runs) =
        if θ < x.1 - (lastTS cur).1 then cur :: (x :: run) :: runs
        else (cur ++ (x :: run)) :: runs from rfl]
      rw [if_neg h]
      rw [show chunksJoin θ (cur ++ [x]) (run :: runs) =
        if θ < (headTS run).1 - (lastTS (cur ++ [x])).1 then (cur ++ [x]) :: run :: runs
        else ((cur ++ [x]) ++ run) :: runs from rfl]
      rw [lastTS_concat, if_neg hgap]
      simp [List.append_assoc]

theorem chunksWith_big (θ : Int) (cur : List (Int × String)) (x : Int × String)
    (rest : List (Int × String)) (h : θ < x.1 - (lastTS cur).1) :
    chunksWith θ cur (x :: rest) = cur :: chunks θ (x :: rest) := by
  obtain ⟨t, runs, ht⟩ := chunks_cons_head θ x rest
  show chunksJoin θ cur (chunks θ (x :: rest)) = cur :: chunks θ (x :: rest)
  rw [ht]
  rw [show chunksJoin θ cur ((x :: t) :: runs) =
    if θ < x.1 - (lastTS cur).1 then cur :: (x :: t) :: runs
    else (cur ++ (x :: t)) :: runs from rfl]
  rw [if_pos h]

theorem groupGo_eq_chunksWith (θ : Int) (rest : List (Int × String)) :
    ∀ (cur : List (Int × String)), cur ≠ [] →
      groupGo θ (headTS cur).1 (lastTS cur).1 (cur.map Prod.snd) rest =
        (chunksWith θ cur rest).map mkPeriod := by
  induction rest with
  | nil =>
    intro cur hne
    cases cur with
    | nil => exact absurd rfl hne
    | cons a t => simp [groupGo, chunksWith, chunks, chunksJoin, mkPeriod, headTS_cons]
  | cons x rest' ih =>
    intro cur hne
    obtain ⟨ts, msg⟩ := x
    by_cases hgap : θ < ts - (lastTS cur).1
    · simp only [groupGo]
      rw [if_pos hgap]
      have h2 := ih [(ts, msg)] (by simp)
      simp only [headTS_cons, lastTS_singleton, List.map_cons, List.map_nil] at h2
      rw [h2, chunksWith_big θ cur (ts, msg) rest' hgap, ← chunks_cons_eq]
      rw [List.map_cons]
      congr 1
      cases cur with
      | nil => exact absurd rfl hne
      | cons a t => simp [mkPeriod, headTS_cons]
    · simp only [groupGo]
      rw [if_neg hgap]
      have h2 := ih (cur ++ [(ts, msg)]) (by simp)
      rw [headTS_append cur [(ts, msg)] hne, lastTS_concat, List.map_append] at h2
      simp only [List.map_cons, List.map_nil] at h2
      rw [h2, chunksWith_small θ cur (ts, msg) rest' hgap]

theorem groupIntoPeriods_eq (ts : List (Int × String)) (θ : Int) :
    groupIntoPeriods ts θ = (chunks θ ts).map mkPeriod := by
  cases ts with
  | nil => rfl
  | cons x rest =>
    obtain ⟨t, msg⟩ := x
    have h := groupGo_eq_chunksWith θ rest [(t, msg)] (by simp)
    simp only [headTS_cons, lastTS_singleton, List.map_cons, List.map_nil] at h
    show groupGo θ t t [msg] rest = (chunks θ ((t, msg) :: rest)).map mkPeriod
    rw [h, chunks_cons_eq]

theorem chunks_flatten (θ : Int) : ∀ ts : List (Int × String), (chunks θ ts).flatten = ts := by
  intro ts
  induction ts with
  | nil => rfl
  | cons x xs ih =>
    show (chunksStep θ x (chunks θ xs)).flatten = x :: xs
    cases h : chunks θ xs with
    | nil =>
      have hxs : xs = [] := by rw [← ih, h]; rfl
      simp [chunksStep, hxs]
    | cons run runs =>
      rw [h] at ih
      have hflat : run ++ runs.flatten = xs := by rw [← ih, List.flatten_cons]
      by_cases hgap : θ < (headTS run).1 - x.1
      · rw [show chunksStep θ x (run :: runs) =
          if θ < (headTS run).1 - x.1 then [x] :: run :: runs else (x :: run) :: runs from rfl]
        rw [if_pos hgap, List.flatten_cons, List.flatten_cons, hflat]
        rfl
      · rw [show chunksStep θ x (run :: runs) =
          if θ < (headTS run).1 - x.1 then [x] :: run :: runs else (x :: run) :: runs from rfl]
        rw [if_neg hgap, List.flatten_cons, List.cons_append, hflat]

theorem chunks_ne_nil (θ : Int) : ∀ ts, ∀ r ∈ chunks θ ts, r ≠ [] := by
  intro ts
  induction ts with
  | nil => intro r hr; simp [chunks] at hr
  | cons x xs ih =>
    intro r hr
    have hr' : r ∈ chunksStep θ x (chunks θ xs) := hr
    cases h : chunks θ xs with
    | nil =>
      rw [h] at hr'
      simp [chunksStep] at hr'
      simp [hr']
    | cons run runs =>
      rw [h] at hr'
      by_cases hgap : θ < (headTS run).1 - x.1
      · rw [show chunksStep θ x (run :: runs) =
          if θ < (headTS run).1 - x.1 then [x] :: run :: runs else (x :: run) :: runs from rfl,
          if_pos hgap] at hr'
        rcases List.mem_cons.mp hr' with rfl | h2
        · simp
        · exact ih r (by rw [h]; exact h2)
      · rw [show chunksStep θ x (run :: runs) =
          if θ < (headTS run).1 - x.1 then [x] :: run :: runs else (x :: run) :: runs from rfl,
          if_neg hgap] at hr'
        rcases List.mem_cons.mp hr' with rfl | h2
        · simp
        · exact ih r (by rw [h]; exact List.mem_cons_of_mem run h2)

theorem chunks_chain (θ : Int) :
    ∀ ts, List.Chain' (fun a b => θ < (headTS b).1 - (lastTS a).1) (chunks θ ts) := by
  intro ts
  induction ts with
  | nil => simp [chunks]
  | cons x xs ih =>
    show List.Chain' _ (chunksStep θ x (chunks θ xs))
    cases h : chunks θ xs with
    | nil => simp [chunksStep]
    | cons run runs =>
      rw [h] at ih
      have hrunne : run ≠ [] :=
        chunks_ne_nil θ xs run (by rw [h]; exact List.mem_cons_self _ _)
      by_cases hgap : θ < (headTS run).1 - x.1
      · rw [show chunksStep θ x (run :: runs) =
          if θ < (headTS run).1 - x.1 then [x] :: run :: runs else (x :: run) :: runs from rfl,
          if_pos hgap]
        refine List.chain'_cons.mpr ⟨?_, ih⟩
        rw [lastTS_singleton]
        exact hgap
      · rw [show chunksStep θ x (run :: runs) =
          if θ < (headTS run).1 - x.1 then [x] :: run :: runs else (x :: run) :: runs from rfl,
          if_neg hgap]
        cases runs with
        | nil => simp
        | cons r2 rs =>
          have hpair := List.chain'_cons.mp ih
          refine List.chain'_cons.mpr ⟨?_, hpair.2⟩
          rw [lastTS_cons x run hrunne]
          exact hpair.1

theorem sublist_flatten_of_mem {α : Type} :
    ∀ (L : List (List α)) (r : List α), r ∈ L → List.Sublist r L.flatten := by
  intro L
  induction L with
  | nil => intro r hr; simp at hr
  | cons a t ih =>
    intro r hr
    rcases List.mem_cons.mp hr with rfl | h2
    · rw [List.flatten_cons]; exact List.sublist_append_left r t.flatten
    · rw [List.flatten_cons]; exact (ih r h2).trans (List.sublist_append_right _ _)

theorem sorted_run_head_le_last : ∀ (r : List (Int × String)), r ≠ [] →
    List.Chain' (fun a b => a.1 ≤ b.1) r → (headTS r).1 ≤ (lastTS r).1 := by
  intro r
  induction r with
  | nil => intro h; exact absurd rfl h
  | cons a t ih =>
    intro _ hch
    cases t with
    | nil => exact le_refl a.1
    | cons b t' =>
      have hpair := List.chain'_cons.mp hch
      have ht := ih (by simp) hpair.2
      calc (headTS (a :: b :: t')).1 = a.1 := rfl
        _ ≤ b.1 := hpair.1
        _ ≤ (lastTS (b :: t')).1 := ht
        _ = (lastTS (a :: b :: t')).1 := rfl

/-- C3: activity segmentation starts a new period exactly when the gap
between consecutive timestamps strictly exceeds the 30-minute threshold
(`groupIntoPeriods` equals the runs split exactly at gaps `> 30`, each run
becoming the period from its first to its last timestamp with its item
count); in particular `[t, t+5min, t+40min, t+41min]` yields exactly the two
periods `[t, t+5]` (2 messages) and `[t+40, t+41]` (2 messages). -/
theorem group_into_periods_spec :
    (∀ ts : List (Int × String), groupIntoPeriods ts 30 = (chunks 30 ts).map mkPeriod) ∧
    (∀ t : Int,
      groupIntoPeriods [(t, "a"), (t + 5, "b"), (t + 40, "c"), (t + 41, "d")] 30 =
        [⟨t, t + 5, 2, "a"⟩, ⟨t + 40, t + 41, 2, "c"⟩]) := by
  refine ⟨fun ts => groupIntoPeriods_eq ts 30, fun t => ?_⟩
  have h1 : ¬ (30 : Int) < t + 5 - t := by omega
  have h2 : (30 : Int) < t + 40 - (t + 5) := by omega
  have h3 : ¬ (30 : Int) < t + 41 - (t + 40) := by omega
  show groupGo 30 t t ["a"] [(t + 5, "b"), (t + 40, "c"), (t + 41, "d")] = _
  simp only [groupGo]
  rw [if_neg h1, if_pos h2, if_neg h3]
  rfl

/-- C10: for every nonempty ascending-sorted evidence list, the reconstructed
timeline's periods each run from a start no later than their end, appear in
chronological order with each period starting strictly after the previous one
ends, and their message counts sum to the number of evidence items, which the
timeline also reports as `total_messages`. -/
theorem timeline_invariants (uuid : String) (ts : List (Int × String))
    (hne : ts ≠ []) (hsorted : List.Chain' (fun a b => a.1 ≤ b.1) ts) :
    (∀ p ∈ (reconstructTimeline uuid ts).periods, p.start ≤ p.stop) ∧
    List.Chain' (fun p q => p.stop < q.start) (reconstructTimeline uuid ts).periods ∧
    ((reconstructTimeline uuid ts).periods.map ActivityPeriod.message_count).sum =
      ts.length ∧
    (reconstructTimeline uuid ts).total_messages = ts.length := by
  obtain ⟨x, rest, rfl⟩ : ∃ x rest, ts = x :: rest := by
    cases ts with
    | nil => exact absurd rfl hne
    | cons a t => exact ⟨a, t, rfl⟩
  have hper : (reconstructTimeline uuid (x :: rest)).periods =
      (chunks 30 (x :: rest)).map mkPeriod := by
    show groupIntoPeriods (x :: rest) 30 = _
    exact groupIntoPeriods_eq (x :: rest) 30
  refine ⟨?_, ?_, ?_, rfl⟩
  · intro p hp
    rw [hper] at hp
    obtain ⟨r, hr, rfl⟩ := List.mem_map.mp hp
    have hrne := chunks_ne_nil 30 (x :: rest) r hr
    haveI : IsTrans (Int × String) fun a b => a.1 ≤ b.1 :=
      ⟨fun a b c hab hbc => le_trans hab hbc⟩
    have hrs : List.Chain' (fun a b => a.1 ≤ b.1) r :=
      hsorted.sublist ((chunks_flatten 30 (x :: rest)) ▸ sublist_flatten_of_mem _ r hr)
    exact sorted_run_head_le_last r hrne hrs
  · rw [hper, List.chain'_map]
    refine (chunks_chain 30 (x :: rest)).imp ?_
    intro a b hab
    simp only [mkPeriod]
    omega
  · rw [hper, List.map_map]
    have hflat := congrArg List.length (chunks_flatten 30 (x :: rest))
    rw [List.length_flatten] at hflat
    rw [← hflat]
    rfl

/-- C10 witness: two evidence items 100 minutes apart give counts summing to 2. -/
theorem timeline_invariants_witness :
    ((reconstructTimeline ("w") [((0 : Int), "a"), (100, "b")]).periods.map
      ActivityPeriod.message_count).sum = 2 :=
  (timeline_invariants ("w") [((0 : Int), "a"), (100, "b")] (by decide)
    (by simp [List.chain'_cons])).2.2.1

/-! ### Deduplication invariants (C2) -/

theorem alistLookup_eq_none_iff {α : Type} (m : List (String × α)) (k : String) :
    alistLookup m k = none ↔ k ∉ m.map Prod.fst := by
  induction m with
  | nil => simp [alistLookup]
  | cons a t ih =>
    obtain ⟨k', w⟩ := a
    by_cases h : k' = k
    · subst h
      rw [alistLookup, if_pos rfl]
      simp
    · rw [alistLookup, if_neg h, ih, List.map_cons]
      constructor
      · intro hh hmem
        rcases List.mem_cons.mp hmem with h1 | h2
        · exact h h1.symm
        · exact hh h2
      · intro hh h2
        exact hh (List.mem_cons_of_mem _ h2)

theorem alistLookup_mem {α : Type} (m : List (String × α)) (k : String) (v : α)
    (h : alistLookup m k = some v) : (k, v) ∈ m := by
  induction m with
  | nil => simp [alistLookup] at h
  | cons a t ih =>
    obtain ⟨k', w⟩ := a
    by_cases hk : k' = k
    · subst hk
      rw [alistLookup, if_pos rfl] at h
      obtain rfl : w = v := by injection h
      exact List.mem_cons_self _ _
    · rw [alistLookup, if_neg hk] at h
      exact List.mem_cons_of_mem _ (ih h)

theorem alistSet_of_not_mem {α : Type} (m : List (String × α)) (k : String) (v : α)
    (h : k ∉ m.map Prod.fst) : alistSet m k v = m ++ [(k, v)] := by
  induction m with
  | nil => rfl
  | cons a t ih =>
    obtain ⟨k', w⟩ := a
    simp only [List.map_cons, List.mem_cons] at h
    push_neg at h
    rw [alistSet, if_neg (by exact fun hh => h.1 hh.symm), ih h.2, List.cons_append]

theorem alistSet_keys_of_mem {α : Type} (m : List (String × α)) (k : String) (v : α)
    (h : k ∈ m.map Prod.fst) : (alistSet m k v).map Prod.fst = m.map Prod.fst := by
  induction m with
  | nil => simp at h
  | cons a t ih =>
    obtain ⟨k', w⟩ := a
    by_cases hk : k' = k
    · subst hk
      rw [alistSet, if_pos rfl]
      rfl
    · rw [alistSet, if_neg hk, List.map_cons, List.map_cons]
      simp only [List.map_cons, List.mem_cons] at h
      rcases h with h1 | h2
      · exact absurd h1.symm hk
      · rw [ih h2]

theorem mem_alistSet {α : Type} (m : List (String × α)) (k : String) (v : α)
    (hnd : (m.map Prod.fst).Nodup) (p : String × α) :
    p ∈ alistSet m k v ↔ (p ∈ m ∧ p.1 ≠ k) ∨ p = (k, v) := by
  induction m with
  | nil => simp [alistSet]
  | cons a t ih =>
    obtain ⟨k', w⟩ := a
    rw [List.map_cons, List.nodup_cons] at hnd
    obtain ⟨hk'nin, hndt⟩ := hnd
    by_cases hk : k' = k
    · subst hk
      rw [alistSet, if_pos rfl]
      constructor
      · intro hp
        rcases List.mem_cons.mp hp with rfl | hpt
        · exact Or.inr rfl
        · refine Or.inl ⟨List.mem_cons_of_mem _ hpt, ?_⟩
          intro hh
          have hfst := List.mem_map_of_mem Prod.fst hpt
          rw [hh] at hfst
          exact hk'nin hfst
      · intro hp
        rcases hp with ⟨hpm, hpk⟩ | rfl
        · rcases List.mem_cons.mp hpm with rfl | hpt
          · exact absurd rfl hpk
          · exact List.mem_cons_of_mem _ hpt
        · exact List.mem_cons_self _ _
    · rw [alistSet, if_neg hk]
      constructor
      · intro hp
        rcases List.mem_cons.mp hp with rfl | hpt
        · exact Or.inl ⟨List.mem_cons_self _ _, hk⟩
        · rcases (ih hndt).mp hpt with ⟨h1, h2⟩ | rfl
          · exact Or.inl ⟨List.mem_cons_of_mem _ h1, h2⟩
          · exact Or.inr rfl
      · intro hp
        rcases hp with ⟨hpm, hpk⟩ | rfl
        · rcases List.mem_cons.mp hpm with rfl | hpt
          · exact List.mem_cons_self _ _
          · exact List.mem_cons_of_mem _ ((ih hndt).mpr (Or.inl ⟨hpt, hpk⟩))
        · exact List.mem_cons_of_mem _ ((ih hndt).mpr (Or.inr rfl))

theorem nodup_keys_unique {α : Type} {m : List (String × α)}
    (hnd : (m.map Prod.fst).Nodup) {p q : String × α}
    (hp : p ∈ m) (hq : q ∈ m) (hpq : p.1 = q.1) : p = q := by
  induction m with
  | nil => simp at hp
  | cons a t ih =>
    rw [List.map_cons, List.nodup_cons] at hnd
    obtain ⟨hanin, hndt⟩ := hnd
    rcases List.mem_cons.mp hp with rfl | hpt
    · rcases List.mem_cons.mp hq with rfl | hqt
      · rfl
      · exact absurd (hpq ▸ List.mem_map_of_mem Prod.fst hqt) hanin
    · rcases List.mem_cons.mp hq with rfl | hqt
      · exact absurd (hpq ▸ List.mem_map_of_mem Prod.fst hpt) hanin
      · exact ih hndt hpt hqt

theorem mapInv_insert (processed : List Session) (m : List (String × Session)) (s : Session)
    (h : MapInv processed m) : MapInv (processed ++ [s]) (insertByPath m s) := by
  obtain ⟨hnd, hent, hcov⟩ := h
  cases hlook : alistLookup m (sessionKey s) with
  | none =>
    have hknotin : sessionKey s ∉ m.map Prod.fst :=
      (alistLookup_eq_none_iff m (sessionKey s)).mp hlook
    simp only [insertByPath, hlook]
    rw [alistSet_of_not_mem m (sessionKey s) s hknotin]
    refine ⟨?_, ?_, ?_⟩
    · rw [List.map_append]
      refine List.Nodup.append hnd (List.nodup_singleton _) ?_
      intro a ha hb
      rw [List.map_cons, List.map_nil, List.mem_singleton] at hb
      rw [hb] at ha
      exact hknotin ha
    · intro p hp
      rcases List.mem_append.mp hp with hp1 | hp2
      · obtain ⟨hkey, hmemp, hmax⟩ := hent p hp1
        refine ⟨hkey, List.mem_append_left _ hmemp, ?_⟩
        intro s' hs' hks'
        rcases List.mem_append.mp hs' with hs1 | hs2
        · exact hmax s' hs1 hks'
        · rw [List.mem_singleton] at hs2
          subst hs2
          have hfst := List.mem_map_of_mem Prod.fst hp1
          rw [← hks'] at hfst
          exact absurd hfst hknotin
      · rw [List.mem_singleton] at hp2
        subst hp2
        refine ⟨rfl, List.mem_append_right _ (by simp), ?_⟩
        intro s' hs' hks'
        rcases List.mem_append.mp hs' with hs1 | hs2
        · obtain ⟨q, hq, hqk⟩ := hcov s' hs1
          have hfst := List.mem_map_of_mem Prod.fst hq
          rw [hqk, hks'] at hfst
          exact absurd hfst hknotin
        · rw [List.mem_singleton] at hs2
          subst hs2
          exact le_refl _
    · intro s' hs'
      rcases List.mem_append.mp hs' with hs1 | hs2
      · obtain ⟨q, hq, hqk⟩ := hcov s' hs1
        exact ⟨q, List.mem_append_left _ hq, hqk⟩
      · rw [List.mem_singleton] at hs2
        subst hs2
        exact ⟨(sessionKey s', s'), List.mem_append_right _ (by simp), rfl⟩
  | some old =>
    have hmem_old : (sessionKey s, old) ∈ m := alistLookup_mem m (sessionKey s) old hlook
    have hkin : sessionKey s ∈ m.map Prod.fst := List.mem_map_of_mem Prod.fst hmem_old
    by_cases hsz : old.context_size < s.context_size
    · simp only [insertByPath, hlook]
      rw [if_pos hsz]
      refine ⟨?_, ?_, ?_⟩
      · rw [alistSet_keys_of_mem m (sessionKey s) s hkin]
        exact hnd
      · intro p hp
        rcases (mem_alistSet m (sessionKey s) s hnd p).mp hp with ⟨hpm, hpk⟩ | rfl
        · obtain ⟨hkey, hmemp, hmax⟩ := hent p hpm
          refine ⟨hkey, List.mem_append_left _ hmemp, ?_⟩
          intro s' hs' hks'
          rcases List.mem_append.mp hs' with hs1 | hs2
          · exact hmax s' hs1 hks'
          · rw [List.mem_singleton] at hs2
            subst hs2
            exact absurd hks'.symm hpk
        · refine ⟨rfl, List.mem_append_right _ (by simp), ?_⟩
          intro s' hs' hks'
          rcases List.mem_append.mp hs' with hs1 | hs2
          · obtain ⟨hkeyo, hmemo, hmaxo⟩ := hent (sessionKey s, old) hmem_old
            exact le_trans (hmaxo s' hs1 hks') (le_of_lt hsz)
          · rw [List.mem_singleton] at hs2
            subst hs2
            exact le_refl _
      · intro s' hs'
        rcases List.mem_append.mp hs' with hs1 | hs2
        · obtain ⟨q, hq, hqk⟩ := hcov s' hs1
          by_cases hqkey : q.1 = sessionKey s
          · exact ⟨(sessionKey s, s), (mem_alistSet m (sessionKey s) s hnd _).mpr (Or.inr rfl),
              hqkey.symm.trans hqk⟩
          · exact ⟨q, (mem_alistSet m (sessionKey s) s hnd q).mpr (Or.inl ⟨hq, hqkey⟩), hqk⟩
        · rw [List.mem_singleton] at hs2
          subst hs2
          exact ⟨(sessionKey s', s'),
            (mem_alistSet m (sessionKey s') s' hnd _).mpr (Or.inr rfl), rfl⟩
    · simp only [insertByPath, hlook]
      rw [if_neg hsz]
      refine ⟨hnd, ?_, ?_⟩
      · intro p hp
        obtain ⟨hkey, hmemp, hmax⟩ := hent p hp
        refine ⟨hkey, List.mem_append_left _ hmemp, ?_⟩
        intro s' hs' hks'
        rcases List.mem_append.mp hs' with hs1 | hs2
        · exact hmax s' hs1 hks'
        · rw [List.mem_singleton] at hs2
          subst hs2
          have hpe : p = (sessionKey s', old) :=
            nodup_keys_unique hnd hp hmem_old hks'.symm
          rw [hpe]
          exact not_lt.mp hsz
      · intro s' hs'
        rcases List.mem_append.mp hs' with hs1 | hs2
        · exact hcov s' hs1
        · rw [List.mem_singleton] at hs2
          subst hs2
          exact ⟨(sessionKey s', old), hmem_old, rfl⟩

theorem byPathMap_inv : ∀ (rest processed : List Session) (m : List (String × Session)),
    MapInv processed m → MapInv (processed ++ rest) (byPathMap rest m) := by
  intro rest
  induction rest with
  | nil =>
    intro processed m h
    simpa using h
  | cons s rest' ih =>
    intro processed m h
    have h3 := ih (processed ++ [s]) (insertByPath m s) (mapInv_insert processed m s h)
    simpa [List.append_assoc] using h3

theorem dedupByPath_inv (ss : List Session) :
    ((dedupByPath ss).map sessionKey).Nodup ∧
    (∀ s ∈ ss, ∃ t ∈ dedupByPath ss, sessionKey t = sessionKey s) ∧
    (∀ t ∈ dedupByPath ss, t ∈ ss ∧
      ∀ s ∈ ss, sessionKey s = sessionKey t → s.context_size ≤ t.context_size) := by
  have h0 : MapInv [] [] := ⟨by simp, by simp, by simp⟩
  have h := byPathMap_inv ss [] [] h0
  rw [List.nil_append] at h
  obtain ⟨hnd, hent, hcov⟩ := h
  refine ⟨?_, ?_, ?_⟩
  · show (((byPathMap ss []).map Prod.snd).map sessionKey).Nodup
    rw [List.map_map]
    have hmc : ((byPathMap ss []).map (sessionKey ∘ Prod.snd)) =
        (byPathMap ss []).map Prod.fst := by
      apply List.map_congr_left
      intro p hp
      exact (hent p hp).1
    rw [hmc]
    exact hnd
  · intro s hs
    obtain ⟨p, hp, hpk⟩ := hcov s hs
    exact ⟨p.2, List.mem_map_of_mem Prod.snd hp, by rw [(hent p hp).1, hpk]⟩
  · intro t ht
    obtain ⟨p, hp, rfl⟩ := List.mem_map.mp ht
    obtain ⟨hkey, hmem, hmax⟩ := hent p hp
    exact ⟨hmem, fun s hs hks => hmax s hs (hks.trans hkey)⟩

/-- C2: the session list returned by `load_sessions` contains exactly one
session per distinct deduplication key (the cwd, or the encoded project path
when the cwd is empty) occurring among the parsed records that survive the
noise filters, and each kept session is one of those records with the largest
`context_size` among all records sharing its key. -/
theorem load_sessions_dedup (cat : Session → String) (files : List (Option Session)) :
    ((load_sessions cat files).map sessionKey).Nodup ∧
    (∀ s ∈ files.filterMap (validFilter cat), ∃ t ∈ load_sessions cat files,
      sessionKey t = sessionKey s) ∧
    (∀ t ∈ load_sessions cat files, t ∈ files.filterMap (validFilter cat) ∧
      ∀ s ∈ files.filterMap (validFilter cat), sessionKey s = sessionKey t →
        s.context_size ≤ t.context_size) :=
  dedupByPath_inv (files.filterMap (validFilter cat))

/-- C2 witness: of two records sharing cwd `/p` (600 and 900 bytes), the kept
one dominates the other's size. -/
theorem load_sessions_dedup_witness : sessF.context_size ≤ sessG.context_size :=
  ((load_sessions_dedup catW filesW).2.2 sessG (by decide)).2 sessF (by decide) (by decide)

/-! ### Path encoding (C6) -/

theorem replaceSlashDot_cons_ne (c : Char) (l : List Char) (hc : c ≠ '/') :
    replaceSlashDot (c :: l) = c :: replaceSlashDot l := by
  cases l with
  | nil => rfl
  | cons d l' =>
    rw [replaceSlashDot, if_neg (fun hh => hc hh.1)]

theorem replaceSlashDot_slash_dot (rest : List Char) :
    replaceSlashDot ('/' :: '.' :: rest) = '/' :: '-' :: replaceSlashDot rest := by
  rw [replaceSlashDot, if_pos ⟨rfl, rfl⟩]

theorem replaceSlashDot_slash_ne (d : Char) (rest : List Char) (hd : d ≠ '.') :
    replaceSlashDot ('/' :: d :: rest) = '/' :: replaceSlashDot (d :: rest) := by
  rw [replaceSlashDot, if_neg (fun hh => hd hh.2)]

theorem replaceSlashDot_append_of_no_slash :
    ∀ (t rest : List Char), '/' ∉ t → replaceSlashDot (t ++ rest) = t ++ replaceSlashDot rest := by
  intro t
  induction t with
  | nil => intro rest _; rfl
  | cons c t' ih =>
    intro rest h
    have hc : c ≠ '/' := fun e => h (List.mem_cons.mpr (Or.inl e.symm))
    have h' : '/' ∉ t' := fun hm => h (List.mem_cons_of_mem _ hm)
    rw [List.cons_append, replaceSlashDot_cons_ne c _ hc, ih rest h', List.cons_append]

theorem markDot_cons_ne (c0 : Char) (ct : List Char) (h : c0 ≠ '.') :
    markDot (c0 :: ct) = c0 :: ct := by
  rw [markDot, if_neg h]

theorem markDot_no_slash (c : List Char) (h : '/' ∉ c) : '/' ∉ markDot c := by
  cases c with
  | nil => simp [markDot]
  | cons c0 ct =>
    by_cases hdot : c0 = '.'
    · subst hdot
      rw [markDot, if_pos rfl]
      intro hm
      rcases List.mem_cons.mp hm with h1 | h2
      · exact absurd h1 (by decide)
      · exact h (List.mem_cons_of_mem _ h2)
    · rw [markDot_cons_ne c0 ct hdot]
      exact h

theorem map_slashToDash_of_no_slash (l : List Char) (h : '/' ∉ l) :
    l.map slashToDash = l := by
  induction l with
  | nil => rfl
  | cons c t ih =>
    have hc : c ≠ '/' := fun e => h (List.mem_cons.mpr (Or.inl e.symm))
    have h' : '/' ∉ t := fun hm => h (List.mem_cons_of_mem _ hm)
    rw [List.map_cons, ih h', show slashToDash c = c from if_neg hc]

theorem replaceSlashDot_fullPath : ∀ (cs : List (List Char)), (∀ c ∈ cs, '/' ∉ c) →
    replaceSlashDot (fullPath cs) = (cs.map (fun c => '/' :: markDot c)).flatten := by
  intro cs
  induction cs with
  | nil => intro _; rfl
  | cons c cs' ih =>
    intro h
    have hc : '/' ∉ c := h c (List.mem_cons_self _ _)
    have hcs' : ∀ c' ∈ cs', '/' ∉ c' := fun c' hc' => h c' (List.mem_cons_of_mem _ hc')
    show replaceSlashDot (('/' :: c) ++ fullPath cs') =
      ('/' :: markDot c) ++ (cs'.map (fun c => '/' :: markDot c)).flatten
    cases c with
    | nil =>
      cases cs' with
      | nil => rfl
      | cons c2 cs'' =>
        simp only [List.cons_append, List.nil_append]
        rw [show fullPath (c2 :: cs'') = '/' :: (c2 ++ fullPath cs'') from rfl]
        rw [replaceSlashDot_slash_ne '/' _ (by decide)]
        rw [show ('/' :: (c2 ++ fullPath cs'') : List Char) = fullPath (c2 :: cs'') from rfl]
        rw [ih hcs']
        rfl
    | cons c0 ct =>
      by_cases hdot : c0 = '.'
      · subst hdot
        have hct : '/' ∉ ct := fun hm => hc (List.mem_cons_of_mem _ hm)
        simp only [List.cons_append]
        rw [replaceSlashDot_slash_dot, replaceSlashDot_append_of_no_slash ct _ hct, ih hcs']
        rw [markDot, if_pos rfl]
        simp [List.cons_append]
      · simp only [List.cons_append]
        rw [replaceSlashDot_slash_ne c0 _ hdot]
        rw [← List.cons_append, replaceSlashDot_append_of_no_slash (c0 :: ct) _ hc, ih hcs']
        rw [markDot_cons_ne c0 ct hdot]

/-- C6 counterexample: the hidden-directory path `/a/.b` and the literal-dash
path with components `a-` then `b` encode to the same name `a--b`, so a
hidden component is not distinguishable in the encoded name from a collapse
of a literal dash. -/
theorem cwd_to_project_path_collision_cex :
    cwd_to_project_path ['/', 'a', '/', '.', 'b'] = ['a', '-', '-', 'b'] ∧
    cwd_to_project_path ['/', 'a', '-', '/', 'b'] = ['a', '-', '-', 'b'] ∧
    cwd_to_project_path ['/', 'a', '/', '.', 'b'] =
      cwd_to_project_path ['/', 'a', '-', '/', 'b'] ∧
    (['/', 'a', '/', '.', 'b'] : List Char) ≠ ['/', 'a', '-', '/', 'b'] := by
  decide

/-- C6 (amended): `encode` is a deterministic function that maps an absolute
path with slash-free components to: each separator replaced by a dash, each
component's leading dot replaced by an additional dash (yielding a double
dash for hidden components), with all leading dashes then stripped; the
double-dash marking does not make hidden components distinguishable from
literal-dash names in general. -/
theorem cwd_to_project_path_spec (cs : List (List Char)) (h : ∀ c ∈ cs, '/' ∉ c) :
    cwd_to_project_path (fullPath cs) = specEncode cs := by
  unfold cwd_to_project_path specEncode
  rw [replaceSlashDot_fullPath cs h]
  congr 1
  rw [List.map_flatten, List.map_map]
  congr 1
  apply List.map_congr_left
  intro c hc
  show ('/' :: markDot c).map slashToDash = '-' :: markDot c
  rw [List.map_cons, show slashToDash '/' = '-' from rfl,
    map_slashToDash_of_no_slash _ (markDot_no_slash c (h c hc))]

/-- C6 witness: the path `/a/.b` satisfies the component-wise encoding spec. -/
theorem cwd_to_project_path_spec_witness :
    cwd_to_project_path (fullPath [['a'], ['.', 'b']]) = specEncode [['a'], ['.', 'b']] :=
  cwd_to_project_path_spec [['a'], ['.', 'b']] (by decide)

/-! ### Excerpt construction (C7) -/

theorem joinNL_nil : joinNL [] = [] := rfl

theorem joinNL_cons (t : List Char) (ts : List (List Char)) :
    joinNL (t :: ts) = (t ++ ['\n']) ++ joinNL ts := rfl

theorem joinNL_append (a b : List (List Char)) : joinNL (a ++ b) = joinNL a ++ joinNL b := by
  simp [joinNL, List.map_append, List.flatten_append]

theorem joinNL_concat (l : List (List Char)) (t : List Char) :
    joinNL (l ++ [t]) = joinNL l ++ (t ++ ['\n']) := by
  rw [joinNL_append]
  simp [joinNL]

theorem buildStartRaw_spec : ∀ (ts : List (List Char)) (acc : List Char),
    ∃ pre suf, ts = pre ++ suf ∧ buildStartRaw acc ts = acc ++ joinNL pre ∧
      (∀ p' t r', pre = p' ++ t :: r' → (acc ++ joinNL p').length + t.length ≤ 2000) ∧
      (suf = [] ∨ ∃ t r, suf = t :: r ∧ 2000 < (acc ++ joinNL pre).length + t.length) := by
  intro ts
  induction ts with
  | nil =>
    intro acc
    refine ⟨[], [], rfl, ?_, ?_, Or.inl rfl⟩
    · show acc = acc ++ joinNL []
      simp [joinNL_nil]
    · intro p' t r' hh
      exact absurd hh (by simp)
  | cons t ts' ih =>
    intro acc
    by_cases hstop : 2000 < acc.length + t.length
    · refine ⟨[], t :: ts', rfl, ?_, ?_, Or.inr ⟨t, ts', rfl, ?_⟩⟩
      · rw [buildStartRaw, if_pos hstop]
        simp [joinNL_nil]
      · intro p' u r' hh
        exact absurd hh (by simp)
      · simpa [joinNL_nil] using hstop
    · obtain ⟨pre₁, suf₁, hsplit, hval, hgreedy, hstop₁⟩ := ih (acc ++ t ++ ['\n'])
      have hacc : ∀ l : List (List Char),
          (acc ++ t ++ ['\n']) ++ joinNL l = acc ++ joinNL (t :: l) := by
        intro l
        rw [joinNL_cons]
        simp [List.append_assoc]
      refine ⟨t :: pre₁, suf₁, ?_, ?_, ?_, ?_⟩
      · rw [List.cons_append, ← hsplit]
      · rw [buildStartRaw, if_neg hstop, hval, hacc]
      · intro p' u r' hh
        cases p' with
        | nil =>
          rw [List.nil_append] at hh
          injection hh with h1 h2
          subst h1
          have h2000 := Nat.not_lt.mp hstop
          simpa [joinNL_nil] using h2000
        | cons p0 p'' =>
          rw [List.cons_append] at hh
          injection hh with h1 h2
          subst h1
          have hg := hgreedy p'' u r' h2
          rw [hacc] at hg
          exact hg
      · rcases hstop₁ with h | ⟨u, r, hsr, hlen⟩
        · exact Or.inl h
        · refine Or.inr ⟨u, r, hsr, ?_⟩
          rw [hacc] at hlen
          exact hlen

theorem buildEndRaw_spec : ∀ (rts : List (List Char)) (acc : List Char),
    ∃ pre suf, rts = pre ++ suf ∧ buildEndRaw acc rts = joinNL pre.reverse ++ acc ∧
      (∀ p' u r', pre = p' ++ u :: r' →
        (joinNL p'.reverse ++ acc).length + u.length ≤ 2000) ∧
      (suf = [] ∨ ∃ u r, suf = u :: r ∧
        2000 < (joinNL pre.reverse ++ acc).length + u.length) := by
  intro rts
  induction rts with
  | nil =>
    intro acc
    refine ⟨[], [], rfl, ?_, ?_, Or.inl rfl⟩
    · show acc = joinNL [] ++ acc
      simp [joinNL_nil]
    · intro p' u r' hh
      exact absurd hh (by simp)
  | cons t rts' ih =>
    intro acc
    by_cases hstop : 2000 < acc.length + t.length
    · refine ⟨[], t :: rts', rfl, ?_, ?_, Or.inr ⟨t, rts', rfl, ?_⟩⟩
      · rw [buildEndRaw, if_pos hstop]
        simp [joinNL_nil]
      · intro p' u r' hh
        exact absurd hh (by simp)
      · simpa [joinNL_nil] using hstop
    · obtain ⟨pre₁, suf₁, hsplit, hval, hgreedy, hstop₁⟩ := ih (t ++ '\n' :: acc)
      have hacc : ∀ l : List (List Char),
          joinNL l.reverse ++ (t ++ '\n' :: acc) = joinNL (t :: l).reverse ++ acc := by
        intro l
        rw [List.reverse_cons, joinNL_concat]
        simp [List.append_assoc]
      refine ⟨t :: pre₁, suf₁, ?_, ?_, ?_, ?_⟩
      · rw [List.cons_append, ← hsplit]
      · rw [buildEndRaw, if_neg hstop, hval, hacc]
      · intro p' u r' hh
        cases p' with
        | nil =>
          rw [List.nil_append] at hh
          injection hh with h1 h2
          subst h1
          have h2000 := Nat.not_lt.mp hstop
          simpa [joinNL_nil] using h2000
        | cons p0 p'' =>
          rw [List.cons_append] at hh
          injection hh with h1 h2
          subst h1
          have hg := hgreedy p'' u r' h2
          rw [hacc] at hg
          exact hg
      · rcases hstop₁ with h | ⟨u, r, hsr, hlen⟩
        · exact Or.inl h
        · refine Or.inr ⟨u, r, hsr, ?_⟩
          rw [hacc] at hlen
          exact hlen

theorem buildStartRaw_len : ∀ (ts : List (List Char)) (acc : List Char),
    (buildStartRaw acc ts).length ≤ max acc.length 2001 := by
  intro ts
  induction ts with
  | nil => intro acc; exact le_max_left _ _
  | cons t ts' ih =>
    intro acc
    by_cases hstop : 2000 < acc.length + t.length
    · rw [buildStartRaw, if_pos hstop]
      exact le_max_left _ _
    · rw [buildStartRaw, if_neg hstop]
      refine le_trans (ih (acc ++ t ++ ['\n'])) ?_
      have h2000 := Nat.not_lt.mp hstop
      have hlen : (acc ++ t ++ ['\n']).length ≤ 2001 := by
        simp only [List.length_append, List.length_cons, List.length_nil]
        omega
      rw [max_eq_right hlen]
      exact le_max_right _ _

theorem buildEndRaw_len : ∀ (rts : List (List Char)) (acc : List Char),
    (buildEndRaw acc rts).length ≤ max acc.length 2001 := by
  intro rts
  induction rts with
  | nil => intro acc; exact le_max_left _ _
  | cons t rts' ih =>
    intro acc
    by_cases hstop : 2000 < acc.length + t.length
    · rw [buildEndRaw, if_pos hstop]
      exact le_max_left _ _
    · rw [buildEndRaw, if_neg hstop]
      refine le_trans (ih (t ++ '\n' :: acc)) ?_
      have h2000 := Nat.not_lt.mp hstop
      have hlen : (t ++ '\n' :: acc).length ≤ 2001 := by
        simp only [List.length_append, List.length_cons]
        omega
      rw [max_eq_right hlen]
      exact le_max_right _ _

theorem buildStartRaw_ends : ∀ (ts : List (List Char)) (acc : List Char),
    (acc = [] ∨ ∃ u, acc = u ++ ['\n']) →
    (buildStartRaw acc ts = [] ∨ ∃ u, buildStartRaw acc ts = u ++ ['\n']) := by
  intro ts
  induction ts with
  | nil => intro acc h; exact h
  | cons t ts' ih =>
    intro acc h
    by_cases hstop : 2000 < acc.length + t.length
    · rw [buildStartRaw, if_pos hstop]
      exact h
    · rw [buildStartRaw, if_neg hstop]
      exact ih _ (Or.inr ⟨acc ++ t, rfl⟩)

theorem buildEndRaw_ends : ∀ (rts : List (List Char)) (acc : List Char),
    (acc = [] ∨ ∃ u, acc = u ++ ['\n']) →
    (buildEndRaw acc rts = [] ∨ ∃ u, buildEndRaw acc rts = u ++ ['\n']) := by
  intro rts
  induction rts with
  | nil => intro acc h; exact h
  | cons t rts' ih =>
    intro acc h
    by_cases hstop : 2000 < acc.length + t.length
    · rw [buildEndRaw, if_pos hstop]
      exact h
    · rw [buildEndRaw, if_neg hstop]
      refine ih _ (Or.inr ?_)
      rcases h with rfl | ⟨u, rfl⟩
      · exact ⟨t, rfl⟩
      · exact ⟨t ++ '\n' :: u, by simp⟩

theorem length_dropWhile_le {α : Type} (p : α → Bool) :
    ∀ l : List α, (l.dropWhile p).length ≤ l.length := by
  intro l
  induction l with
  | nil => simp
  | cons a t ih =>
    rw [List.dropWhile_cons]
    by_cases h : p a = true
    · rw [if_pos h]
      exact le_trans ih (by simp)
    · rw [if_neg h]

theorem dropLead_concat_nl : ∀ (u : List Char),
    (u ++ ['\n']).dropWhile isPyWs = [] ∨
    ∃ u', (u ++ ['\n']).dropWhile isPyWs = u' ++ ['\n'] ∧ u'.length ≤ u.length := by
  intro u
  induction u with
  | nil => left; decide
  | cons c u' ih =>
    by_cases hc : isPyWs c = true
    · rw [List.cons_append, List.dropWhile_cons, if_pos hc]
      rcases ih with h | ⟨u'', h1, h2⟩
      · exact Or.inl h
      · exact Or.inr ⟨u'', h1, le_trans h2 (by simp)⟩
    · rw [List.cons_append, List.dropWhile_cons, if_neg hc]
      exact Or.inr ⟨c :: u', rfl, le_refl _⟩

theorem pyStrip_concat_nl_len (u : List Char) : (pyStrip (u ++ ['\n'])).length ≤ u.length := by
  unfold pyStrip
  rcases dropLead_concat_nl u with h | ⟨u', hu', hlen⟩
  · rw [h]
    simp
  · rw [hu']
    have hrev : (u' ++ ['\n']).reverse = '\n' :: u'.reverse := by simp
    rw [hrev, List.dropWhile_cons, if_pos (by decide), List.length_reverse]
    exact le_trans (length_dropWhile_le _ _) (by simpa using hlen)

theorem buildContextStart_len (texts : List (List Char)) :
    (buildContextStart texts).length ≤ 2000 := by
  unfold buildContextStart
  rcases buildStartRaw_ends texts [] (Or.inl rfl) with h | ⟨u, hu⟩
  · rw [h]
    simp [pyStrip]
  · rw [hu]
    have hraw : (u ++ ['\n']).length ≤ 2001 := by
      rw [← hu]
      simpa using buildStartRaw_len texts []
    have hu_len : u.length ≤ 2000 := by
      simp only [List.length_append, List.length_cons, List.length_nil] at hraw
      omega
    exact le_trans (pyStrip_concat_nl_len u) hu_len

theorem buildContextEnd_len (texts : List (List Char)) :
    (buildContextEnd texts).length ≤ 2000 := by
  unfold buildContextEnd
  rcases buildEndRaw_ends texts.reverse [] (Or.inl rfl) with h | ⟨u, hu⟩
  · rw [h]
    simp [pyStrip]
  · rw [hu]
    have hraw : (u ++ ['\n']).length ≤ 2001 := by
      rw [← hu]
      simpa using buildEndRaw_len texts.reverse []
    have hu_len : u.length ≤ 2000 := by
      simp only [List.length_append, List.length_cons, List.length_nil] at hraw
      omega
    exact le_trans (pyStrip_concat_nl_len u) hu_len

/-- C7: the stored start excerpt is built by concatenating the ordered text
fragments front-to-back (each followed by a newline), stopping before the
first fragment whose addition would exceed 2000 characters, and the end
excerpt is built back-to-front from the last fragments under the same cap;
after the final strip neither excerpt's text exceeds 2000 characters. -/
theorem excerpt_build_spec (texts : List (List Char)) :
    (buildContextStart texts).length ≤ 2000 ∧
    (buildContextEnd texts).length ≤ 2000 ∧
    (∃ pre suf, texts = pre ++ suf ∧ buildStartRaw [] texts = joinNL pre ∧
      (∀ p' t r', pre = p' ++ t :: r' → (joinNL p').length + t.length ≤ 2000) ∧
      (suf = [] ∨ ∃ t r, suf = t :: r ∧ 2000 < (joinNL pre).length + t.length)) ∧
    (∃ front tail, texts = front ++ tail ∧ buildEndRaw [] texts.reverse = joinNL tail ∧
      (∀ a u b, tail = a ++ u :: b → (joinNL b).length + u.length ≤ 2000) ∧
      (front = [] ∨ ∃ fi u, front = fi ++ [u] ∧
        2000 < (joinNL tail).length + u.length)) := by
  refine ⟨buildContextStart_len texts, buildContextEnd_len texts, ?_, ?_⟩
  · obtain ⟨pre, suf, hsplit, hval, hgreedy, hstop⟩ := buildStartRaw_spec texts []
    refine ⟨pre, suf, hsplit, by simpa using hval, ?_, ?_⟩
    · intro p' t r' hh
      simpa using hgreedy p' t r' hh
    · rcases hstop with h | ⟨t, r, h1, h2⟩
      · exact Or.inl h
      · exact Or.inr ⟨t, r, h1, by simpa using h2⟩
  · obtain ⟨pre, suf, hsplit, hval, hgreedy, hstop⟩ := buildEndRaw_spec texts.reverse []
    refine ⟨suf.reverse, pre.reverse, ?_, ?_, ?_, ?_⟩
    · have := congrArg List.reverse hsplit
      simpa [List.reverse_append] using this
    · simpa using hval
    · intro a u b hh
      have hpre : pre = b.reverse ++ u :: a.reverse := by
        have := congrArg List.reverse hh
        simpa [List.reverse_append, List.append_assoc] using this
      simpa using hgreedy b.reverse u a.reverse hpre
    · rcases hstop with h | ⟨u, r, h1, h2⟩
      · exact Or.inl (by simp [h])
      · refine Or.inr ⟨r.reverse, u, ?_, by simpa using h2⟩
        rw [h1]
        simp

/-- C7 witness: two short fragments are both kept and the cap holds. -/
theorem excerpt_build_spec_witness :
    (buildContextStart [['h', 'i'], ['y', 'o']]).length ≤ 2000 :=
  (excerpt_build_spec [['h', 'i'], ['y', 'o']]).1
